import Mathlib

/-!
Verification of the pyphen-rs hyphenation engine.

Shallow embedding of the core of the crate: `DataInt` (src/data_int.rs),
`AlternativeParser` (src/alternative_parser.rs), `HyphDict` compilation and
scanning (src/hyph_dict.rs) and the `Pyphen` consumer operations
(src/pyphen/mod.rs, src/pyphen/iter.rs).

Strings are modelled as `List Char` (one entry per character; the Rust code
indexes by byte, which coincides for ASCII data).  Rust `usize` subtraction and
out-of-range slicing abort the program; every operation that can abort is
modelled in the `Except Unit` monad, `.error ()` standing for a panic.  The
per-word memo cache (a `RefCell<HashMap<..>>` in the Rust code) is threaded
explicitly as an association list, and methods that take `&self` return the
receiver unchanged, mirroring the immutable borrow.
-/

deriving instance DecidableEq for Except

namespace PyphenRs

/-- `DataInt` of src/data_int.rs: a weight plus optional nonstandard-hyphenation
data `(change, index, cut)`. -/
structure DataInt where
  value : Nat
  data : Option (List Char × Int × Nat)
deriving DecidableEq, Repr

/-- ASCII single-character uppercasing (codes 97–122 are `a`–`z`), the
embedding of the case mapping the crate applies through `to_uppercase`. -/
def upperChar (c : Char) : Char :=
  if 97 ≤ c.toNat ∧ c.toNat ≤ 122 then Char.ofNat (c.toNat - 32) else c

/-- ASCII single-character lowercasing (codes 65–90 are `A`–`Z`), the
embedding of `to_lowercase`. -/
def lowerChar (c : Char) : Char :=
  if 65 ≤ c.toNat ∧ c.toNat ≤ 90 then Char.ofNat (c.toNat + 32) else c

/-- `word.to_lowercase()` over the character-list model. -/
def lowerWord (w : List Char) : List Char := w.map lowerChar

/-- `word == word.to_uppercase()`, the all-uppercase test of the crate. -/
def isUpperWord (w : List Char) : Bool := w == w.map upperChar

/-- `str::split(sep)`: the groups between occurrences of `sep` (always at least
one group, possibly empty). -/
def splitOnChar (sep : Char) : List Char → List (List Char)
  | [] => [[]]
  | c :: rest =>
    if c = sep then [] :: splitOnChar sep rest
    else
      match splitOnChar sep rest with
      | [] => [[c]]
      | g :: gs => (c :: g) :: gs

/-- Numeric value of a decimal digit character. -/
def digitVal (c : Char) : Nat := c.toNat - '0'.toNat

/-- Accumulating decimal parse of a digit run. -/
def parseNatAux (acc : Nat) : List Char → Option Nat
  | [] => some acc
  | c :: rest => if c.isDigit then parseNatAux (10 * acc + digitVal c) rest else none

/-- Parse a non-empty all-digit string as a `Nat`. -/
def parseNatChars (s : List Char) : Option Nat :=
  if s = [] then none else parseNatAux 0 s

/-- `usize::from_str`: optional leading `+`, then digits. -/
def parseUsize (s : List Char) : Option Nat :=
  match s with
  | '+' :: r => parseNatChars r
  | _ => parseNatChars s

/-- `isize::from_str`: optional sign, then digits. -/
def parseIsize (s : List Char) : Option Int :=
  match s with
  | '-' :: r => (parseNatChars r).map fun n => -(n : Int)
  | '+' :: r => (parseNatChars r).map fun n => (n : Int)
  | _ => (parseNatChars s).map fun n => (n : Int)

/-- `AlternativeParser` of src/alternative_parser.rs: the captured substitution
text, the countdown index and the cut length. -/
structure AlternativeParser where
  change : List Char
  index : Int
  cut : Nat
deriving DecidableEq, Repr

/-- The three comma-separated fields of the alternative suffix, as
`AlternativeParser::new` reads them (`alternative[0]`, `alternative[1]` parsed
as `isize`, `alternative[2]` parsed as `usize`; extra fields are ignored,
missing fields or failed parses panic, modelled by `none`). -/
def parseAlt (alternative : List Char) : Option (List Char × Int × Nat) :=
  match splitOnChar ',' alternative with
  | c :: i :: t :: _ => do
    let iv ← parseIsize i
    let tv ← parseUsize t
    pure (c, iv, tv)
  | _ => none

/-- `AlternativeParser::new`: store the fields, then add one to the index when
the base pattern starts with the leading-boundary marker `.`. -/
def AlternativeParser.new (pattern alternative : List Char) : Option AlternativeParser :=
  (parseAlt alternative).map fun f =>
    { change := f.1
      index := if pattern.head? = some '.' then f.2.1 + 1 else f.2.1
      cut := f.2.2 }

/-- `AlternativeParser::call`: decrement the countdown, then return a
`DataInt` carrying the rule exactly when the consumed digit is odd
(`value & 1 != 0`).  The returned parser is the mutated `self`. -/
def AlternativeParser.call (ap : AlternativeParser) (v : DataInt) :
    DataInt × AlternativeParser :=
  let ap2 : AlternativeParser := { ap with index := ap.index - 1 }
  if v.value &&& 1 ≠ 0 then
    (⟨v.value, some (ap2.change, ap2.index, ap2.cut)⟩, ap2)
  else
    (⟨v.value, none⟩, ap2)

/-- Lowercase hexadecimal digit, as matched by the crate's `[0-9a-f]` class. -/
def isHexLower (c : Char) : Bool := c.isDigit || (decide ('a' ≤ c) && decide (c ≤ 'f'))

/-- Value of a lowercase hexadecimal digit. -/
def hexVal (c : Char) : Nat := if c.isDigit then digitVal c else c.toNat - 'a'.toNat + 10

/-- Fuel-indexed scanner for the `PARSE_HEX` substitution; the fuel is kept
at least the list length, so the fuel-exhausted equation is never taken. -/
def replaceHexGo : Nat → List Char → List Char
  | _, [] => []
  | 0, l => l
  | fuel + 1, c :: rest =>
    match c, rest with
    | '^', '^' :: h1 :: h2 :: rest2 =>
      if isHexLower h1 && isHexLower h2 then
        Char.ofNat (16 * hexVal h1 + hexVal h2) :: replaceHexGo fuel rest2
      else '^' :: replaceHexGo fuel rest
    | _, _ => c :: replaceHexGo fuel rest

/-- The `PARSE_HEX` substitution: every `^^hh` (two lowercase hex digits)
becomes the character with that code. -/
def replaceHex (l : List Char) : List Char := replaceHexGo l.length l

/-- The `PARSE` tokenizer `(\d?)(\D?)`: successive (optional digit, optional
non-digit) matches, ending with the empty match at the end of the line.  Each
match is returned as (non-digit text, digit weight with 0 for an absent
digit). -/
def parsePattern : List Char → List (List Char × Nat)
  | [] => [([], 0)]
  | [c] =>
    if c.isDigit then [([], digitVal c), ([], 0)]
    else [([c], 0), ([], 0)]
  | c :: d :: rest2 =>
    if c.isDigit then
      if d.isDigit then ([], digitVal c) :: parsePattern (d :: rest2)
      else ([d], digitVal c) :: parsePattern rest2
    else ([c], 0) :: parsePattern (d :: rest2)

/-- Run the optional alternative factory over the tokenized pairs in order,
threading the mutated factory; without a factory every digit becomes a bare
`DataInt` (`DataInt::new(i, None)`). -/
def applyFactory : Option AlternativeParser → List (List Char × Nat) → List (List Char × DataInt)
  | none, pairs => pairs.map fun p => (p.1, ⟨p.2, none⟩)
  | some _, [] => []
  | some f, p :: rest =>
    let r := f.call ⟨p.2, none⟩
    (p.1, r.1) :: applyFactory (some r.2) rest

/-- `values.iter().map(|x| x.value).max()` with 0 for the empty list. -/
def maxWeight (values : List DataInt) : Nat := (values.map DataInt.value).foldr max 0

/-- The trimming step of `HyphDict::new`: drop a pattern whose weights are all
zero, otherwise chop zero weights from both ends, returning the start offset
(`position` of the first nonzero) and the slice `values[start..end]`. -/
def trimPattern (values : List DataInt) : Option (Nat × List DataInt) :=
  if maxWeight values = 0 then none
  else
    let start := values.findIdx fun v => v.value != 0
    let stop := values.length - 1 - (values.reverse.findIdx fun v => v.value != 0) + 1
    some (start, (values.take stop).drop start)

/-- `HashMap::insert`: the new binding replaces any existing binding of the
same key. -/
def insertPattern (k : List Char) (v : Nat × List DataInt)
    (ps : List (List Char × Nat × List DataInt)) : List (List Char × Nat × List DataInt) :=
  (k, v.1, v.2) :: ps.filter fun e => e.1 != k

/-- Tokenize a base pattern, run the factory, and store the trimmed weights
keyed by the concatenated non-digit fragments (nothing is stored for an
all-zero pattern). -/
def storePattern (ps : List (List Char × Nat × List DataInt)) (base : List Char)
    (fac : Option AlternativeParser) : List (List Char × Nat × List DataInt) :=
  let tagged := applyFactory fac (parsePattern base)
  match trimPattern (tagged.map Prod.snd) with
  | none => ps
  | some sv => insertPattern ((tagged.map Prod.fst).flatten) sv ps

/-- One line of `HyphDict::new`: skip blank and comment lines, apply the hex
substitution, split off an alternative suffix at `/` (a malformed suffix
panics, modelled by `.error`), and store the pattern. -/
def processLine (ps : List (List Char × Nat × List DataInt)) (line : List Char) :
    Except Unit (List (List Char × Nat × List DataInt)) :=
  if line = [] ∨ line.head? = some '%' ∨ line.head? = some '#' then .ok ps
  else
    let line2 := replaceHex line
    if '/' ∈ line2 then
      let idx := line2.findIdx fun c => c == '/'
      let base := line2.take idx
      let alt := line2.drop (idx + 1)
      match AlternativeParser.new base alt with
      | none => .error ()
      | some f => .ok (storePattern ps base (some f))
    else .ok (storePattern ps line2 none)

/-- `HyphDict` of src/hyph_dict.rs without its memo cache: the compiled
pattern table and the longest key length. -/
structure HyphDict where
  patterns : List (List Char × Nat × List DataInt)
  maxlen : Nat
deriving DecidableEq, Repr

/-- `HyphDict::new` over an already-read list of lines: fold the line
processing and record `maxlen` as the maximum key length (0 for an empty
table). -/
def HyphDict.ofLines (lines : List (List Char)) : Except Unit HyphDict := do
  let ps ← lines.foldlM processLine []
  pure ⟨ps, (ps.map fun e => e.1.length).foldr max 0⟩

/-- Lookup in an association list; on the pattern table this is
`HashMap::get`, on the memo cache `cache.borrow().get(..)`. -/
def assocFind (k : List Char) : List (List Char × α) → Option α
  | [] => none
  | e :: rest => if e.1 = k then some e.2 else assocFind k rest

/-- The substring `l[i..j]` of the character-list model. -/
def sliceL (l : List Char) (i j : Nat) : List Char := (l.take j).drop i

/-- The padded word `"." + word + "."` built by `HyphDict::positions`. -/
def pointedWord (w : List Char) : List Char := '.' :: w ++ ['.']

/-- The overwrite zip of the scan: each slot keeps its value unless the
pattern value is strictly greater (`y.value > x.value`); slots beyond the
pattern's values are untouched. -/
def overlayVals : List DataInt → List DataInt → List DataInt
  | xs, [] => xs
  | [], _ :: _ => []
  | x :: xs, y :: ys => (if x.value < y.value then y else x) :: overlayVals xs ys

/-- Apply one pattern hit to `references[start..start+values.len()]`; a window
reaching past the vector is the Rust slice panic, modelled as `.error`. -/
def overlayAt (refs : List DataInt) (start : Nat) (values : List DataInt) :
    Except Unit (List DataInt) :=
  if start + values.length ≤ refs.length then
    .ok (refs.take start ++ overlayVals (refs.drop start) values)
  else .error ()

/-- One inner-loop step of the scan: look up `pointed_word[i..j]` and overlay
a hit at `i + offset`. -/
def scanStep (hd : HyphDict) (pw : List Char) (i : Nat) (refs : List DataInt) (j : Nat) :
    Except Unit (List DataInt) :=
  match assocFind (sliceL pw i j) hd.patterns with
  | none => .ok refs
  | some ov => overlayAt refs (i + ov.1) ov.2

/-- The inner loop of the scan: `j` over the half-open range
`(i + 1)..min(i + maxlen, pointed_word.len() + 1)`. -/
def scanRow (hd : HyphDict) (pw : List Char) (refs : List DataInt) (i : Nat) :
    Except Unit (List DataInt) :=
  (List.range' (i + 1) (min (i + hd.maxlen) (pw.length + 1) - (i + 1))).foldlM
    (scanStep hd pw i) refs

/-- The full overlay scan of `HyphDict::positions`: the weight vector of
length `pointed_word.len() + 1` after both loops, for an already lowercased
word. -/
def hyphRefs (hd : HyphDict) (w : List Char) : Except Unit (List DataInt) :=
  let pw := pointedWord w
  (List.range (pw.length - 1)).foldlM (scanRow hd pw)
    (List.replicate (pw.length + 1) ⟨0, none⟩)

/-- Rust `usize` subtraction: on underflow the program aborts. -/
def checkedSub (a b : Nat) : Except Unit Nat :=
  if b ≤ a then .ok (a - b) else .error ()

/-- The final `map` of `HyphDict::positions`: each kept `(i, reference)`
becomes `DataInt::with_ref(i - 1, &reference)`, with the `usize` subtraction
able to abort at `i = 0`. -/
def mapPoints : List (Nat × DataInt) → Except Unit (List DataInt)
  | [] => .ok []
  | q :: rest => do
    let v ← checkedSub q.1 1
    let vs ← mapPoints rest
    pure (⟨v, q.2.data⟩ :: vs)

/-- The pure part of `HyphDict::positions` on an already lowercased word:
scan, keep odd-weight slots, re-express each kept index as `index - 1`. -/
def hyphPoints (hd : HyphDict) (w : List Char) : Except Unit (List DataInt) := do
  let refs ← hyphRefs hd w
  mapPoints (refs.enum.filter fun q => q.2.value % 2 != 0)

/-- The per-word memo cache of `HyphDict`, keyed by lowercased word. -/
abbrev Cache := List (List Char × List DataInt)

/-- `HyphDict::positions`: lowercase, return a cached result if present,
otherwise compute, cache and return.  The receiver is returned unchanged
(the method borrows `self` immutably; only the `RefCell` cache moves). -/
def HyphDict.positionsS (hd : HyphDict) (c : Cache) (word : List Char) :
    Except Unit (List DataInt) × HyphDict × Cache :=
  let w := lowerWord word
  match assocFind w c with
  | some pts => (.ok pts, hd, c)
  | none =>
    match hyphPoints hd w with
    | .error e => (.error e, hd, c)
    | .ok pts => (.ok pts, hd, (w, pts) :: c)

/-- `Pyphen` of src/pyphen/mod.rs: the two minima and the shared dictionary. -/
structure Pyphen where
  left : Nat
  right : Nat
  hd : HyphDict
deriving DecidableEq, Repr

/-- `Pyphen::positions`: `let right = word.len() - self.right;` (a `usize`
subtraction that aborts when the word is shorter than `right`), then filter
the dictionary's positions to `left <= value <= right`. -/
def Pyphen.positionsS (p : Pyphen) (c : Cache) (word : List Char) :
    Except Unit (List DataInt) × Pyphen × Cache :=
  if word.length < p.right then (.error (), p, c)
  else
    let rightBound := word.length - p.right
    match p.hd.positionsS c word with
    | (.error e, hd2, c2) => (.error e, { p with hd := hd2 }, c2)
    | (.ok pts, hd2, c2) =>
      (.ok (pts.filter fun q => decide (p.left ≤ q.value) && decide (q.value ≤ rightBound)),
        { p with hd := hd2 }, c2)

/-- The breakpoint sequence underlying `Pyphen::iterate`: the filtered
positions walked from the largest offset to the smallest
(`positions(word).into_iter().rev()`). -/
def Pyphen.iterateS (p : Pyphen) (c : Cache) (word : List Char) :
    Except Unit (List DataInt) × Pyphen × Cache :=
  match p.positionsS c word with
  | (.error e, p2, c2) => (.error e, p2, c2)
  | (.ok pts, p2, c2) => (.ok pts.reverse, p2, c2)

/-- `index as usize` for an `isize` index: two's-complement reinterpretation
modulo `2 ^ 64`. -/
def usizeCast (i : Int) : Nat := (i % (2 ^ 64 : Int)).toNat

/-- `Iter::next` of src/pyphen/iter.rs on one breakpoint: with a rule,
uppercase the substitution text if the word is uppercase, add the break
offset to the rule index, split the text at `=` (a missing second half is the
`unwrap` panic), resolve a negative index as `word.len() - index as usize`
(an aborting `usize` subtraction), and slice; without a rule, plain slices at
the offset. -/
def iterNextOne (word : List Char) (isUp : Bool) (position : DataInt) :
    Except Unit (List Char × List Char) :=
  match position.data with
  | some d =>
    let change := if isUp then d.1.map upperChar else d.1
    let cut := d.2.2
    let idx : Int := d.2.1 + (position.value : Int)
    match splitOnChar '=' change with
    | c1 :: c2 :: _ => do
      let index ← if idx < 0 then checkedSub word.length (usizeCast idx) else pure idx.toNat
      if index ≤ word.length ∧ index + cut ≤ word.length then
        .ok (word.take index ++ c1, c2 ++ word.drop (index + cut))
      else .error ()
    | _ => .error ()
  | none =>
    if position.value ≤ word.length then
      .ok (word.take position.value, word.drop position.value)
    else .error ()

/-- The candidate loop of `Pyphen::wrap_with`: walk the breakpoints longest
first, produce each candidate lazily, and return the first whose first part
fits in `width`; `none` when no candidate fits. -/
def wrapScan (word : List Char) (isUp : Bool) (width : Nat) (hyphen : List Char) :
    List DataInt → Except Unit (Option (List Char × List Char))
  | [] => .ok none
  | q :: rest => do
    let c ← iterNextOne word isUp q
    if c.1.length ≤ width then .ok (some (c.1 ++ hyphen, c.2))
    else wrapScan word isUp width hyphen rest

/-- `Pyphen::wrap_with`: `width -= hyphen.len()` (an aborting `usize`
subtraction), then scan the candidates of `iterate` for the first fit, the
hyphen already appended to the first part. -/
def Pyphen.wrapWithS (p : Pyphen) (c : Cache) (word : List Char) (width : Nat)
    (hyphen : List Char) : Except Unit (Option (List Char × List Char)) × Pyphen × Cache :=
  if width < hyphen.length then (.error (), p, c)
  else
    match p.iterateS c word with
    | (.error e, p2, c2) => (.error e, p2, c2)
    | (.ok rev, p2, c2) =>
      (wrapScan word (isUpperWord word) (width - hyphen.length) hyphen rev, p2, c2)

/-- `change.replace('=', hyphen)` over the character-list model. -/
def replaceEq (hyphen : List Char) (change : List Char) : List Char :=
  change.foldr (fun ch acc => if ch = '=' then hyphen ++ acc else ch :: acc) []

/-- `Vec::splice(a..b, repl)`: replace the range `a..b` by `repl`. -/
def spliceAt (xs : List Char) (a b : Nat) (repl : List Char) : List Char :=
  xs.take a ++ repl ++ xs.drop b

/-- The splice loop of `Pyphen::inserted_with` over the breakpoints in
descending order: a ruled breakpoint splices the substitution (its `=`
replaced by the hyphen) over `cut` characters at the resolved index, a plain
one inserts the hyphen; out-of-range indices are the `Vec::splice` panic. -/
def insertedFold (isUp : Bool) (hyphen : List Char) :
    List Char → List DataInt → Except Unit (List Char)
  | wl, [] => .ok wl
  | wl, q :: rest => do
    let wl2 ←
      match q.data with
      | some d => do
        let change := if isUp then d.1.map upperChar else d.1
        let cut := d.2.2
        let idx : Int := d.2.1 + (q.value : Int)
        let index ← if idx < 0 then checkedSub wl.length (usizeCast idx) else pure idx.toNat
        if index + cut ≤ wl.length then
          pure (spliceAt wl index (index + cut) (replaceEq hyphen change))
        else Except.error ()
      | none =>
        if q.value ≤ wl.length then pure (spliceAt wl q.value q.value hyphen)
        else Except.error ()
    insertedFold isUp hyphen wl2 rest

/-- `Pyphen::inserted_with`: materialize the word, then apply every
breakpoint of `positions(word)` in descending offset order. -/
def Pyphen.insertedWithS (p : Pyphen) (c : Cache) (word hyphen : List Char) :
    Except Unit (List Char) × Pyphen × Cache :=
  match p.positionsS c word with
  | (.error e, p2, c2) => (.error e, p2, c2)
  | (.ok pts, p2, c2) => (insertedFold (isUpperWord word) hyphen word pts.reverse, p2, c2)

/-- Following the spec's words (section 4.3, the exhaustive-substring-lookup
reading the claim states): the weight at padded slot `k` demanded by the spec
is the pointwise maximum, over every dictionary entry whose key occurs as a
substring `pw[i..j]` of the padded word and covers slot `k`, of that entry's
weight contribution at `k`.  This definition is for comparison with the
implemented scan; it is not a translation of the code. -/
def specMaxWeight (hd : HyphDict) (pw : List Char) (k : Nat) : Nat :=
  ((List.range (pw.length + 1)).map fun i =>
    ((List.range (pw.length + 1)).map fun j =>
      if i < j then
        match assocFind (sliceL pw i j) hd.patterns with
        | some ov =>
          if i + ov.1 ≤ k ∧ k < i + ov.1 + ov.2.length then
            ((ov.2.get? (k - (i + ov.1))).getD ⟨0, none⟩).value
          else 0
        | none => 0
      else 0).foldr max 0).foldr max 0

/-- The dictionary compiled from the single line `a1b`: one entry, key `ab`
with start offset 1 and weights `[1]`, and `maxlen = 2`. -/
def exDict1 : HyphDict := ⟨[("ab".toList, 1, [⟨1, none⟩])], 2⟩

/-- The dictionary compiled from the lines `a1b` and `x1yz` (the second line
only raises `maxlen` to 3 so that the key `ab` is within the scan window). -/
def exDictAB : HyphDict :=
  ⟨[("xyz".toList, 1, [⟨1, none⟩]), ("ab".toList, 1, [⟨1, none⟩])], 3⟩

/-- The dictionary compiled from the lines `1.a` and `x1yz`: the entry `.a`
has start offset 0 and writes its odd weight at padded slot 0 when matched at
the start of a word. -/
def exDictDot : HyphDict :=
  ⟨[("xyz".toList, 1, [⟨1, none⟩]), (".a".toList, 0, [⟨1, none⟩])], 3⟩

/-- C1: the scan of `HyphDict::positions` is claimed to realize the exhaustive
substring lookup, with entries whose key length equals `maxlen` applied at
every occurrence.  The code does not: the inner loop's exclusive upper bound
`(i + 1)..min(i + maxlen, len + 1)` only looks up substrings of length at most
`maxlen - 1`.  Evaluation at the failing input: the dictionary compiled from
the single line `a1b` stores key `ab` (length `maxlen = 2`) with weight 1 at
offset 1; for the word `ab` that key occurs at `i = 1` in the padded word
`.ab.` and the spec's pointwise maximum puts odd weight 1 at padded slot 2,
yet the implemented scan returns no breakpoints. -/
theorem c1_maxlen_key_never_applied :
    HyphDict.ofLines ["a1b".toList] = .ok exDict1 ∧
    sliceL (pointedWord "ab".toList) 1 3 = "ab".toList ∧
    assocFind (sliceL (pointedWord "ab".toList) 1 3) exDict1.patterns =
      some (1, [⟨1, none⟩]) ∧
    ("ab".toList).length = exDict1.maxlen ∧
    specMaxWeight exDict1 (pointedWord "ab".toList) 2 = 1 ∧
    (HyphDict.positionsS exDict1 [] "ab".toList).1 = .ok [] := by decide

/-- C2: `Pyphen::positions` is claimed to return an empty breakpoint list, and
never to fail, on words shorter than `left + right` (in particular shorter
than `right`).  Evaluation at the failing input: with minima `left = 2`,
`right = 3` and the two-character word `ab`, the `usize` subtraction
`word.len() - self.right` aborts before the dictionary is even consulted, and
`inserted_with` aborts through it. -/
theorem c2_short_word_panics :
    (Pyphen.positionsS ⟨2, 3, exDictAB⟩ [] "ab".toList).1 = .error () ∧
    (Pyphen.insertedWithS ⟨2, 3, exDictAB⟩ [] "ab".toList "-".toList).1 = .error () := by
  decide

/-- C3: `wrap_with` is claimed to return `None` for every width below the
shortest prefix-plus-hyphen length, including `width < hyphen.len()`.
Evaluation at the failing input: with width 0 and hyphen `-` the `usize`
subtraction `width -= hyphen.len()` aborts; the same word does have
breakpoints (so the claimed `None` outcome is not vacuous), and a generous
width wraps it normally. -/
theorem c3_small_width_panics :
    (Pyphen.wrapWithS ⟨1, 1, exDictAB⟩ [] "abab".toList 0 "-".toList).1 = .error () ∧
    (Pyphen.positionsS ⟨1, 1, exDictAB⟩ [] "abab".toList).1 =
      .ok [⟨1, none⟩, ⟨3, none⟩] ∧
    (Pyphen.wrapWithS ⟨1, 1, exDictAB⟩ [] "abab".toList 10 "-".toList).1 =
      .ok (some ("aba-".toList, "b".toList)) := by decide

/-- C4: `Iter::next` is claimed to count a negative resolved rule index from
the end of the word.  The code instead computes
`self.word.len() - index as usize`, whose subtrahend for a negative `isize`
index is the two's-complement reinterpretation near `2^64`, so the `usize`
subtraction aborts.  Evaluation at the failing input: word `abcd` with a
ruled breakpoint at offset 1, rule `("x=y", -3, 0)`, resolved index `-2`
(counting from the end it would be 2, giving the candidate `("abx", "ycd")`);
`Iter::next` aborts.  The non-negative path behaves as claimed. -/
theorem c4_negative_index_panics :
    iterNextOne "abcd".toList false ⟨1, some ("x=y".toList, -3, 0)⟩ = .error () ∧
    usizeCast (-2) = 2 ^ 64 - 2 ∧
    iterNextOne "abcd".toList false ⟨2, some ("k=kk".toList, 1, 1)⟩ =
      .ok ("abck".toList, "kk".toList) := by decide

/-- C5 counterexample: the re-expression `index - 1` is claimed never to
underflow for an index kept by the parity filter.  The dictionary compiled
from the lines `1.a` and `x1yz` stores the entry `.a` with start offset 0;
matched at the start of the word `a` it writes odd weight 1 into padded slot
0, that slot passes the parity filter, and `0 - 1` aborts, so
`HyphDict::positions` fails. -/
theorem c5_counterexample :
    HyphDict.ofLines ["1.a".toList, "x1yz".toList] = .ok exDictDot ∧
    hyphRefs exDictDot "a".toList =
      .ok [⟨1, none⟩, ⟨0, none⟩, ⟨0, none⟩, ⟨0, none⟩] ∧
    (HyphDict.positionsS exDictDot [] "a".toList).1 = .error () := by decide

theorem mapPoints_eq_map (l : List (Nat × DataInt)) (h : ∀ q ∈ l, 1 ≤ q.1) :
    mapPoints l = .ok (l.map fun q => (⟨q.1 - 1, q.2.data⟩ : DataInt)) := by
  induction l with
  | nil => rfl
  | cons q rest ih =>
    have h1 : 1 ≤ q.1 := h q (by simp)
    have hr := ih fun x hx => h x (by simp [hx])
    have hc : checkedSub q.1 1 = .ok (q.1 - 1) := by simp [checkedSub, h1]
    simp only [mapPoints, hc, hr]
    rfl

theorem mapPoints_ok_inv :
    ∀ (l : List (Nat × DataInt)) (ys : List DataInt), mapPoints l = .ok ys →
      (∀ q ∈ l, 1 ≤ q.1) ∧ ys = l.map fun q => (⟨q.1 - 1, q.2.data⟩ : DataInt) := by
  intro l
  induction l with
  | nil => intro ys h; exact ⟨by simp, (Except.ok.inj h).symm⟩
  | cons q rest ih =>
    intro ys h
    simp only [mapPoints, Except.bind] at h
    rcases hq : checkedSub q.1 1 with e | v
    · rw [hq] at h; cases h
    · rw [hq] at h
      rcases hrest : mapPoints rest with e | vs
      · rw [hrest] at h; cases h
      · rw [hrest] at h
        have h1 : 1 ≤ q.1 := by
          by_contra hc
          simp [checkedSub, hc] at hq
        have hv : v = q.1 - 1 := by
          simp [checkedSub, h1] at hq; omega
        rcases ih vs hrest with ⟨hall, hmapped⟩
        refine ⟨?_, ?_⟩
        · intro x hx
          rcases List.mem_cons.mp hx with hx | hx
          · subst hx; exact h1
          · exact hall x hx
        · have hys : (⟨v, q.2.data⟩ : DataInt) :: vs = ys := Except.ok.inj h
          subst hys
          simp [hv, hmapped]

theorem kept_index_pos (refs : List DataInt)
    (h0 : ∀ r0, refs.head? = some r0 → r0.value % 2 = 0) :
    ∀ q ∈ refs.enum.filter fun q => q.2.value % 2 != 0, 1 ≤ q.1 := by
  intro q hq
  rcases List.mem_filter.mp hq with ⟨hmem, hodd⟩
  rcases q with ⟨i, r⟩
  cases i with
  | zero =>
    exfalso
    have hget : refs[0]? = some r := by
      have := List.mk_mem_enumFrom_iff_le_and_getElem?_sub.mp hmem
      simpa using this.2
    have hhead : refs.head? = some r := by
      cases refs with
      | nil => simp at hget
      | cons a t => simpa using hget
    have := h0 r hhead
    simp at hodd
    omega
  | succ n => omega

/-- C5 (amended): the amendment the counterexample forces: provided the scan's
final weight at padded slot 0 is even (as it is for every dictionary with no
odd-weight entry anchored at offset 0 before a leading `.`), the `index - 1`
re-expression never underflows and `HyphDict::positions` returns exactly the
odd-weight slots of the scanned vector, re-expressed as `index - 1`, rule
metadata retained. -/
theorem c5_parity_filter_characterization (hd : HyphDict) (w : List Char)
    (refs : List DataInt) (hscan : hyphRefs hd w = .ok refs)
    (h0 : ∀ r0, refs.head? = some r0 → r0.value % 2 = 0) :
    hyphPoints hd w =
      .ok ((refs.enum.filter fun q => q.2.value % 2 != 0).map
        fun q => (⟨q.1 - 1, q.2.data⟩ : DataInt)) := by
  unfold hyphPoints
  rw [hscan]
  simpa [Except.bind] using mapPoints_eq_map _ (kept_index_pos refs h0)

/-- C5 witness: the amended characterization evaluated on the dictionary of
`a1b`/`x1yz` and the word `ab`: the scan yields odd weight only at padded
slot 2, and `positions` returns exactly `[2 - 1] = [1]`. -/
theorem c5_parity_filter_witness :
    hyphPoints exDictAB "ab".toList = .ok [⟨1, none⟩] := by
  have h := c5_parity_filter_characterization exDictAB "ab".toList
    [⟨0, none⟩, ⟨0, none⟩, ⟨1, none⟩, ⟨0, none⟩, ⟨0, none⟩] (by decide) (by decide)
  exact h.trans (by decide)

/-- C6: `AlternativeParser` behaviour: construction increments the stored
index by one exactly when the base pattern starts with `.`; every call
decrements the countdown by exactly one regardless of the digit's parity; a
call with an odd digit returns the digit together with the rule
(substitution text, remaining countdown value, cut length), an even digit a
value with no rule.  The last conjunct evaluates the constructor on the
suffix `x=y,1,2` with a dot-initial pattern. -/
theorem c6_alternative_rule_factory :
    (∀ (pat alt : List Char) (f : List Char × Int × Nat), parseAlt alt = some f →
      AlternativeParser.new pat alt =
        some ⟨f.1, if pat.head? = some '.' then f.2.1 + 1 else f.2.1, f.2.2⟩) ∧
    (∀ (ap : AlternativeParser) (v : DataInt),
      (ap.call v).2 = { ap with index := ap.index - 1 } ∧
      (ap.call v).1 =
        ⟨v.value, if v.value % 2 = 1 then some (ap.change, ap.index - 1, ap.cut)
          else none⟩) ∧
    AlternativeParser.new ".ab".toList "x=y,1,2".toList =
      some ⟨"x=y".toList, 2, 2⟩ := by
  refine ⟨?_, ?_, by decide⟩
  · intro pat alt f hf
    simp [AlternativeParser.new, hf]
  · intro ap v
    rcases Nat.mod_two_eq_zero_or_one v.value with h | h <;>
      constructor <;>
      simp [AlternativeParser.call, Nat.and_one_is_mod, h]

theorem maxWeight_cons (v : DataInt) (rest : List DataInt) :
    maxWeight (v :: rest) = max v.value (maxWeight rest) := rfl

theorem maxWeight_eq_zero_iff (values : List DataInt) :
    maxWeight values = 0 ↔ ∀ u ∈ values, u.value = 0 := by
  induction values with
  | nil => simp [maxWeight]
  | cons v rest ih =>
    rw [maxWeight_cons, Nat.max_eq_zero_iff, ih, List.forall_mem_cons]

theorem findIdx_eq_length_takeWhile_not (p : α → Bool) (l : List α) :
    l.findIdx p = (l.takeWhile fun x => !(p x)).length := by
  induction l with
  | nil => rfl
  | cons a t ih =>
    cases h : p a <;> simp [List.findIdx_cons, List.takeWhile_cons, h, ih]

theorem trimPattern_some_inv :
    ∀ (values vs : List DataInt) (start : Nat), trimPattern values = some (start, vs) →
      vs ≠ [] ∧
      (∃ v, vs.head? = some v ∧ v.value ≠ 0) ∧
      (∃ v, vs.getLast? = some v ∧ v.value ≠ 0) ∧
      start = (values.takeWhile fun v => v.value == 0).length := by
  intro values vs start h
  unfold trimPattern at h
  split at h
  · cases h
  · rename_i hmx
    rcases Option.some.inj h with h2
    obtain ⟨hstart, hvs⟩ : start = (values.findIdx fun v => v.value != 0) ∧
        vs = (values.take (values.length - 1 -
          (values.reverse.findIdx fun v => v.value != 0) + 1)).drop
            (values.findIdx fun v => v.value != 0) := by
      have hfst := congrArg Prod.fst h2
      have hsnd := congrArg Prod.snd h2
      exact ⟨hfst.symm, hsnd.symm⟩
    have hex : ∃ u ∈ values, u.value ≠ 0 := by
      by_contra hc
      push_neg at hc
      exact hmx ((maxWeight_eq_zero_iff values).mpr hc)
    have hexb : ∃ u ∈ values, (fun v : DataInt => v.value != 0) u := by
      rcases hex with ⟨u, hu, hne⟩
      exact ⟨u, hu, by simpa using hne⟩
    have hexrb : ∃ u ∈ values.reverse, (fun v : DataInt => v.value != 0) u := by
      rcases hexb with ⟨u, hu, hp⟩
      exact ⟨u, List.mem_reverse.mpr hu, hp⟩
    set p : DataInt → Bool := fun v => v.value != 0 with hp
    set s := values.findIdx p with hs
    set rfi := values.reverse.findIdx p with hrfi
    have hF1 : s < values.length := List.findIdx_lt_length_of_exists hexb
    have hG1 : rfi < values.length := by
      have := List.findIdx_lt_length_of_exists hexrb
      simpa using this
    -- the element at the first-nonzero index
    have hsome : values[s]? = some values[s] := List.getElem?_eq_getElem hF1
    have hps : p values[s] := List.findIdx_of_getElem?_eq_some hsome
    -- the element at the last-nonzero index
    have hG1' : rfi < values.reverse.length := by simpa using hG1
    have hL : values.length - 1 - rfi < values.length := by omega
    have hrsome : values.reverse[rfi]? = some values.reverse[rfi] :=
      List.getElem?_eq_getElem hG1'
    have hpr : p values.reverse[rfi] := List.findIdx_of_getElem?_eq_some hrsome
    have hrev : values.reverse[rfi] = values[values.length - 1 - rfi] :=
      List.getElem_reverse hG1'
    have hpL : p values[values.length - 1 - rfi] := hrev ▸ hpr
    -- first nonzero is not after last nonzero
    have hsL : s ≤ values.length - 1 - rfi := by
      by_contra hc
      push_neg at hc
      have hfalse : p values[values.length - 1 - rfi] = false :=
        List.not_of_lt_findIdx hc
      rw [hpL] at hfalse
      cases hfalse
    have hstop : values.length - 1 - rfi + 1 ≤ values.length := by omega
    -- shape of the trimmed slice
    have hlen : vs.length = values.length - 1 - rfi + 1 - s := by
      rw [hvs]
      simp [List.length_drop, List.length_take]
      omega
    have hne : vs ≠ [] := by
      have : 0 < vs.length := by omega
      exact List.ne_nil_of_length_pos this
    have hhead : vs.head? = values[s]? := by
      rw [hvs, List.head?_eq_getElem?, List.getElem?_drop, List.getElem?_take]
      simp only [Nat.add_zero]
      rw [if_pos (by omega)]
    have hlast : vs.getLast? = values[values.length - 1 - rfi]? := by
      rw [hvs, List.getLast?_eq_getElem?]
      rw [List.length_drop, List.length_take]
      rw [List.getElem?_drop, List.getElem?_take]
      rw [if_pos (by omega)]
      congr 1
      omega
    refine ⟨hne, ?_, ?_, ?_⟩
    · refine ⟨values[s], ?_, by simpa [hp] using hps⟩
      rw [hhead]
      exact hsome
    · refine ⟨values[values.length - 1 - rfi], ?_, by simpa [hp] using hpL⟩
      rw [hlast]
      exact List.getElem?_eq_getElem hL
    · rw [hstart, hs, findIdx_eq_length_takeWhile_not]
      have hfn : (fun x : DataInt => !p x) = fun v : DataInt => v.value == 0 := by
        funext v
        simp [hp, bne]
      rw [hfn]

theorem mem_storePattern (ps : List (List Char × Nat × List DataInt)) (base : List Char)
    (fac : Option AlternativeParser) (e : List Char × Nat × List DataInt)
    (he : e ∈ storePattern ps base fac) :
    (∃ values, trimPattern values = some (e.2.1, e.2.2)) ∨ e ∈ ps := by
  simp only [storePattern] at he
  rcases ht : trimPattern ((applyFactory fac (parsePattern base)).map Prod.snd)
      with _ | sv
  · rw [ht] at he
    exact Or.inr he
  · rw [ht] at he
    unfold insertPattern at he
    rcases List.mem_cons.mp he with h1 | h1
    · subst h1
      exact Or.inl ⟨(applyFactory fac (parsePattern base)).map Prod.snd, by simpa using ht⟩
    · exact Or.inr (List.mem_filter.mp h1).1

theorem mem_processLine (ps qs : List (List Char × Nat × List DataInt)) (line : List Char)
    (h : processLine ps line = .ok qs) :
    ∀ e ∈ qs, (∃ values, trimPattern values = some (e.2.1, e.2.2)) ∨ e ∈ ps := by
  intro e he
  simp only [processLine] at h
  split at h
  · cases h
    exact Or.inr he
  · split at h
    · rcases hn : AlternativeParser.new (List.take ((replaceHex line).findIdx fun c => c == '/')
          (replaceHex line)) (List.drop (((replaceHex line).findIdx fun c => c == '/') + 1)
          (replaceHex line)) with _ | f
      · rw [hn] at h
        cases h
      · rw [hn] at h
        cases h
        exact mem_storePattern _ _ _ e he
    · cases h
      exact mem_storePattern _ _ _ e he

theorem mem_foldlM_processLine :
    ∀ (lines : List (List Char)) (ps qs : List (List Char × Nat × List DataInt)),
      lines.foldlM processLine ps = .ok qs →
      ∀ e ∈ qs, (∃ values, trimPattern values = some (e.2.1, e.2.2)) ∨ e ∈ ps := by
  intro lines
  induction lines with
  | nil =>
    intro ps qs h e he
    have : ps = qs := Except.ok.inj h
    subst this
    exact Or.inr he
  | cons line rest ih =>
    intro ps qs h e he
    rw [List.foldlM_cons] at h
    rcases hp : processLine ps line with _ | ps1
    · rw [hp] at h
      cases h
    · rw [hp] at h
      have h2 : rest.foldlM processLine ps1 = .ok qs := h
      rcases ih ps1 qs h2 e he with h1 | h1
      · exact Or.inl h1
      · exact mem_processLine ps ps1 line hp e h1

/-- C7: the compilation invariants: a pattern whose weights are all zero is
discarded; a stored (start offset, weight sequence) pair is non-empty, begins
and ends with a nonzero weight (hence contains one), and its start offset is
exactly the number of leading zero weights trimmed; and every entry of a
compiled dictionary is such a trimmed pair. -/
theorem c7_compile_invariants :
    (∀ values : List DataInt, (∀ v ∈ values, v.value = 0) → trimPattern values = none) ∧
    (∀ (values vs : List DataInt) (start : Nat), trimPattern values = some (start, vs) →
      vs ≠ [] ∧
      (∃ v, vs.head? = some v ∧ v.value ≠ 0) ∧
      (∃ v, vs.getLast? = some v ∧ v.value ≠ 0) ∧
      start = (values.takeWhile fun v => v.value == 0).length) ∧
    (∀ (lines : List (List Char)) (d : HyphDict) (e : List Char × Nat × List DataInt),
      HyphDict.ofLines lines = .ok d → e ∈ d.patterns →
      ∃ values : List DataInt, trimPattern values = some (e.2.1, e.2.2)) := by
  refine ⟨?_, trimPattern_some_inv, ?_⟩
  · intro values hall
    simp [trimPattern, (maxWeight_eq_zero_iff values).mpr hall]
  · intro lines d e hof he
    unfold HyphDict.ofLines at hof
    rcases hf : lines.foldlM processLine [] with _ | ps
    · rw [hf] at hof
      cases hof
    · rw [hf] at hof
      have hd : (⟨ps, (ps.map fun e => e.1.length).foldr max 0⟩ : HyphDict) = d :=
        Except.ok.inj hof

      rcases mem_foldlM_processLine lines [] ps hf e (by rw [← hd] at he; exact he)
          with h1 | h1
      · exact h1
      · cases h1

theorem enum_pairwise_fst (l : List α) : l.enum.Pairwise fun a b => a.1 < b.1 := by
  rw [List.pairwise_iff_getElem]
  intro i j hi hj hij
  have hi' : i < l.length := by simpa using hi
  have hj' : j < l.length := by simpa using hj
  simp only [List.enum, List.getElem_enumFrom]
  simpa using hij

theorem hyphPoints_pairwise (hd : HyphDict) (w : List Char) (pts : List DataInt)
    (h : hyphPoints hd w = .ok pts) :
    pts.Pairwise fun a b => a.value < b.value := by
  unfold hyphPoints at h
  rcases hr : hyphRefs hd w with e | refs
  · rw [hr] at h
    cases h
  · rw [hr] at h
    have h2 : mapPoints (refs.enum.filter fun q => q.2.value % 2 != 0) = .ok pts := h
    rcases mapPoints_ok_inv _ _ h2 with ⟨hall, hmap⟩
    subst hmap
    rw [List.pairwise_map]
    have hpw : (refs.enum.filter fun q => q.2.value % 2 != 0).Pairwise
        fun a b => a.1 < b.1 := (enum_pairwise_fst refs).filter _
    refine hpw.imp_of_mem ?_
    intro a b ha hb hab
    have h1 := hall a ha
    simp only
    omega

/-- C8: whenever `Pyphen::positions` succeeds, the returned offsets are
strictly ascending and every offset lies in `[left, word.len() - right]`, and
the breakpoint sequence `iterate` walks is exactly the same list reversed,
strictly descending (longest first part first). -/
theorem c8_ordering (p : Pyphen) (word : List Char) (pts : List DataInt) (c2 : Cache)
    (h : Pyphen.positionsS p [] word = (.ok pts, p, c2)) :
    pts.Pairwise (fun a b => a.value < b.value) ∧
    (∀ q ∈ pts, p.left ≤ q.value ∧ q.value ≤ word.length - p.right) ∧
    (Pyphen.iterateS p [] word).1 = .ok pts.reverse ∧
    pts.reverse.Pairwise (fun a b => b.value < a.value) := by
  have hiter : (Pyphen.iterateS p [] word).1 = .ok pts.reverse := by
    unfold Pyphen.iterateS
    rw [h]
  unfold Pyphen.positionsS at h
  split at h
  · simp at h
  · rcases hh : hyphPoints p.hd (lowerWord word) with e | pts0
    · have hps : p.hd.positionsS [] word = (.error e, p.hd, []) := by
        simp [HyphDict.positionsS, assocFind, hh]
      rw [hps] at h
      simp at h
    · have hps : p.hd.positionsS [] word = (.ok pts0, p.hd, [(lowerWord word, pts0)]) := by
        simp [HyphDict.positionsS, assocFind, hh]
      rw [hps] at h
      simp only [Prod.mk.injEq] at h
      obtain ⟨hfst, -, -⟩ := h
      have hpts : pts = pts0.filter fun q => decide (p.left ≤ q.value) &&
          decide (q.value ≤ word.length - p.right) := (Except.ok.inj hfst).symm
      have hpw0 : pts0.Pairwise fun a b => a.value < b.value :=
        hyphPoints_pairwise p.hd (lowerWord word) pts0 hh
      have hpw : pts.Pairwise fun a b => a.value < b.value := by
        rw [hpts]
        exact hpw0.filter _
      refine ⟨hpw, ?_, hiter, ?_⟩
      · intro q hq
        rw [hpts] at hq
        have := List.of_mem_filter hq
        simpa using this
      · rw [List.pairwise_reverse]
        exact hpw

/-- C8 witness: the ordering theorem evaluated on the dictionary of
`a1b`/`x1yz`, minima 1/1 and the word `abab`, whose accepted breakpoints are
`[1, 3]`. -/
theorem c8_ordering_witness :
    ([⟨1, none⟩, ⟨3, none⟩] : List DataInt).Pairwise (fun a b => a.value < b.value) ∧
    (∀ q ∈ ([⟨1, none⟩, ⟨3, none⟩] : List DataInt),
      (⟨1, 1, exDictAB⟩ : Pyphen).left ≤ q.value ∧
      q.value ≤ ("abab".toList).length - (⟨1, 1, exDictAB⟩ : Pyphen).right) ∧
    (Pyphen.iterateS ⟨1, 1, exDictAB⟩ [] "abab".toList).1 =
      .ok ([⟨1, none⟩, ⟨3, none⟩] : List DataInt).reverse ∧
    (([⟨1, none⟩, ⟨3, none⟩] : List DataInt).reverse).Pairwise
      (fun a b => b.value < a.value) :=
  c8_ordering ⟨1, 1, exDictAB⟩ "abab".toList [⟨1, none⟩, ⟨3, none⟩]
    [("abab".toList, [⟨1, none⟩, ⟨3, none⟩])] (by decide)

theorem hyphDict_positionsS_cases (hd : HyphDict) (c : Cache) (word : List Char) :
    (∃ pts, assocFind (lowerWord word) c = some pts ∧
      HyphDict.positionsS hd c word = (.ok pts, hd, c)) ∨
    (assocFind (lowerWord word) c = none ∧
      ((∃ pts, hyphPoints hd (lowerWord word) = .ok pts ∧
        HyphDict.positionsS hd c word = (.ok pts, hd, (lowerWord word, pts) :: c)) ∨
      (∃ e, hyphPoints hd (lowerWord word) = .error e ∧
        HyphDict.positionsS hd c word = (.error e, hd, c)))) := by
  rcases hc : assocFind (lowerWord word) c with _ | pts
  · right
    refine ⟨rfl, ?_⟩
    rcases hh : hyphPoints hd (lowerWord word) with e | pts
    · exact Or.inr ⟨e, rfl, by simp [HyphDict.positionsS, hc, hh]⟩
    · exact Or.inl ⟨pts, rfl, by simp [HyphDict.positionsS, hc, hh]⟩
  · exact Or.inl ⟨pts, rfl, by simp [HyphDict.positionsS, hc]⟩

theorem pyphen_positionsS_receiver (p : Pyphen) (c : Cache) (word : List Char) :
    (Pyphen.positionsS p c word).2.1 = p := by
  unfold Pyphen.positionsS
  split
  · rfl
  · rcases hyphDict_positionsS_cases p.hd c word with ⟨pts, hc, heq⟩ |
      ⟨hc, ⟨pts, hh, heq⟩ | ⟨e, hh, heq⟩⟩ <;> rw [heq]

theorem pyphen_iterateS_receiver (p : Pyphen) (c : Cache) (word : List Char) :
    (Pyphen.iterateS p c word).2.1 = p := by
  have h := pyphen_positionsS_receiver p c word
  unfold Pyphen.iterateS
  rcases hps : Pyphen.positionsS p c word with ⟨r, p2, c2⟩
  rw [hps] at h
  rcases r with e | pts <;> simpa using h

theorem pyphen_wrapWithS_receiver (p : Pyphen) (c : Cache) (word : List Char)
    (width : Nat) (hyphen : List Char) :
    (Pyphen.wrapWithS p c word width hyphen).2.1 = p := by
  have h := pyphen_iterateS_receiver p c word
  unfold Pyphen.wrapWithS
  split
  · rfl
  · rcases hit : Pyphen.iterateS p c word with ⟨r, p2, c2⟩
    rw [hit] at h
    rcases r with e | rev <;> simpa using h

theorem pyphen_insertedWithS_receiver (p : Pyphen) (c : Cache) (word hyphen : List Char) :
    (Pyphen.insertedWithS p c word hyphen).2.1 = p := by
  have h := pyphen_positionsS_receiver p c word
  unfold Pyphen.insertedWithS
  rcases hps : Pyphen.positionsS p c word with ⟨r, p2, c2⟩
  rw [hps] at h
  rcases r with e | pts <;> simpa using h

/-- C9: the frame of `HyphDict::positions` and of the `Pyphen` operations:
the receiver (pattern table and `maxlen`) is returned unchanged; no cache key
other than the lowercased word is ever touched; a hit returns the cached
contents and leaves the cache exactly as it was (an existing entry is never
removed or replaced); on a miss the only effect is inserting the computed
breakpoint list (no insertion happens when the computation aborts); a
repeated call returns the same result and leaves the cache unchanged; and
every `Pyphen` operation returns its receiver — hence `left` and `right` —
unchanged. -/
theorem c9_frame (hd : HyphDict) (c : Cache) (word : List Char) (p : Pyphen) :
    (HyphDict.positionsS hd c word).2.1 = hd ∧
    (∀ k, k ≠ lowerWord word →
      assocFind k (HyphDict.positionsS hd c word).2.2 = assocFind k c) ∧
    (∀ pts, assocFind (lowerWord word) c = some pts →
      HyphDict.positionsS hd c word = (.ok pts, hd, c)) ∧
    (assocFind (lowerWord word) c = none →
      (∃ pts, hyphPoints hd (lowerWord word) = .ok pts ∧
        HyphDict.positionsS hd c word = (.ok pts, hd, (lowerWord word, pts) :: c)) ∨
      (∃ e, hyphPoints hd (lowerWord word) = .error e ∧
        HyphDict.positionsS hd c word = (.error e, hd, c))) ∧
    HyphDict.positionsS hd (HyphDict.positionsS hd c word).2.2 word =
      HyphDict.positionsS hd c word ∧
    (Pyphen.positionsS p c word).2.1 = p ∧
    (Pyphen.iterateS p c word).2.1 = p ∧
    (∀ width hyphen, (Pyphen.wrapWithS p c word width hyphen).2.1 = p) ∧
    (∀ hyphen, (Pyphen.insertedWithS p c word hyphen).2.1 = p) := by
  rcases hyphDict_positionsS_cases hd c word with ⟨pts, hc, heq⟩ |
    ⟨hc, ⟨pts, hh, heq⟩ | ⟨e, hh, heq⟩⟩
  · refine ⟨by rw [heq], ?_, ?_, ?_, ?_, pyphen_positionsS_receiver p c word,
      pyphen_iterateS_receiver p c word,
      fun width hyphen => pyphen_wrapWithS_receiver p c word width hyphen,
      fun hyphen => pyphen_insertedWithS_receiver p c word hyphen⟩
    · intro k hk
      rw [heq]
    · intro pts2 hc2
      rw [hc] at hc2
      cases hc2
      exact heq
    · intro hcn
      rw [hc] at hcn
      cases hcn
    · rw [heq]
      exact heq
  · refine ⟨by rw [heq], ?_, ?_, ?_, ?_, pyphen_positionsS_receiver p c word,
      pyphen_iterateS_receiver p c word,
      fun width hyphen => pyphen_wrapWithS_receiver p c word width hyphen,
      fun hyphen => pyphen_insertedWithS_receiver p c word hyphen⟩
    · intro k hk
      rw [heq]
      simp only [assocFind]
      rw [if_neg fun hw => hk hw.symm]
    · intro pts2 hc2
      rw [hc] at hc2
      cases hc2
    · intro _
      exact Or.inl ⟨pts, hh, heq⟩
    · rw [heq]
      simp [HyphDict.positionsS, assocFind]
  · refine ⟨by rw [heq], ?_, ?_, ?_, ?_, pyphen_positionsS_receiver p c word,
      pyphen_iterateS_receiver p c word,
      fun width hyphen => pyphen_wrapWithS_receiver p c word width hyphen,
      fun hyphen => pyphen_insertedWithS_receiver p c word hyphen⟩
    · intro k hk
      rw [heq]
    · intro pts2 hc2
      rw [hc] at hc2
      cases hc2
    · intro _
      exact Or.inr ⟨e, hh, heq⟩
    · rw [heq]
      exact heq

theorem bind_pure_except (x : α) (f : α → Except Unit β) :
    (pure x >>= f : Except Unit β) = f x := rfl

theorem toNat_ofNat_small (n : Nat) (h : n < 55296) : (Char.ofNat n).toNat = n := by
  unfold Char.ofNat
  rw [dif_pos (Or.inl h)]
  rfl

theorem upperChar_eq_eq_iff (c : Char) : upperChar c = '=' ↔ c = '=' := by
  constructor
  · intro h
    unfold upperChar at h
    split at h
    · rename_i hr
      exfalso
      have hv := congrArg Char.toNat h
      rw [toNat_ofNat_small (c.toNat - 32) (by omega)] at hv
      have h61 : ('=').toNat = 61 := rfl
      rw [h61] at hv
      omega
    · exact h
  · intro h
    subst h
    decide

theorem eq_mem_map_upperChar (l : List Char) : '=' ∈ l.map upperChar ↔ '=' ∈ l := by
  rw [List.mem_map]
  constructor
  · rintro ⟨a, ha, he⟩
    exact (upperChar_eq_eq_iff a).mp he ▸ ha
  · intro h
    exact ⟨'=', h, by decide⟩

theorem splitOnChar_ne_nil (sep : Char) (l : List Char) : splitOnChar sep l ≠ [] := by
  induction l with
  | nil => simp [splitOnChar]
  | cons c t ih =>
    simp only [splitOnChar]
    split
    · simp
    · rcases h : splitOnChar sep t with _ | ⟨g, gs⟩
      · exact absurd h ih
      · simp [h]

theorem splitOnChar_of_not_mem (sep : Char) (l : List Char) (h : sep ∉ l) :
    splitOnChar sep l = [l] := by
  induction l with
  | nil => rfl
  | cons c t ih =>
    have hc : ¬ c = sep := fun he => h (he ▸ List.mem_cons_self c t)
    have ht : sep ∉ t := fun m => h (List.mem_cons_of_mem c m)
    simp only [splitOnChar, if_neg hc, ih ht]

theorem splitOnChar_two_of_mem (sep : Char) (l : List Char) (h : sep ∈ l) :
    ∃ a b rest, splitOnChar sep l = a :: b :: rest := by
  induction l with
  | nil => cases h
  | cons c t ih =>
    by_cases hc : c = sep
    · subst hc
      rcases hsp : splitOnChar c t with _ | ⟨g, gs⟩
      · exact absurd hsp (splitOnChar_ne_nil c t)
      · exact ⟨[], g, gs, by simp [splitOnChar, hsp]⟩
    · have ht : sep ∈ t := by
        rcases List.mem_cons.mp h with h1 | h1
        · exact absurd h1.symm hc
        · exact h1
      rcases ih ht with ⟨a, b, rest, hr⟩
      exact ⟨c :: a, b, rest, by simp [splitOnChar, hc, hr]⟩

/-- C10 (amended): the split of the substitution text in `Iter::next` happens
before index resolution, and when the text contains `=` its second `unwrap`
never fires; with the resolved index additionally non-negative and in range
the call succeeds.  `Iter::next` is however not total under the claimed
precondition alone — a ruled breakpoint with a negative resolved index still
aborts (see the counterexample).  A rule text without `=` always makes the
call abort, as the claim's last part states. -/
theorem c10_split_unwrap (word : List Char) (isUp : Bool) (position : DataInt)
    (change : List Char) (idx0 : Int) (cut : Nat)
    (hdata : position.data = some (change, idx0, cut))
    (hnn : 0 ≤ idx0 + (position.value : Int))
    (hle : (idx0 + (position.value : Int)).toNat ≤ word.length)
    (hcut : (idx0 + (position.value : Int)).toNat + cut ≤ word.length) :
    (('=' ∈ change) → ∃ w1 w2, iterNextOne word isUp position = .ok (w1, w2)) ∧
    (('=' ∉ change) → iterNextOne word isUp position = .error ()) := by
  constructor
  · intro hmem
    have hmem' : '=' ∈ (if isUp then change.map upperChar else change) := by
      split
      · exact (eq_mem_map_upperChar change).mpr hmem
      · exact hmem
    rcases splitOnChar_two_of_mem '=' _ hmem' with ⟨a, b, rest, hsp⟩
    refine ⟨word.take (idx0 + (position.value : Int)).toNat ++ a,
      b ++ word.drop ((idx0 + (position.value : Int)).toNat + cut), ?_⟩
    simp only [iterNextOne, hdata, hsp]
    rw [if_neg (by omega : ¬ idx0 + (position.value : Int) < 0)]
    rw [bind_pure_except]
    simp [hle, hcut]
  · intro hnotmem
    have hnotmem' : '=' ∉ (if isUp then change.map upperChar else change) := by
      split
      · intro hm
        exact hnotmem ((eq_mem_map_upperChar change).mp hm)
      · exact hnotmem
    have hsp := splitOnChar_of_not_mem '=' _ hnotmem'
    simp only [iterNextOne, hdata, hsp]

/-- C10 counterexample: the totality asserted by the claim fails even under
its precondition: the rule text `p=q` contains `=`, yet `Iter::next` on the
word `abcde` with that rule at offset 1 and rule index `-4` (resolved index
`-3`) aborts in the negative-index subtraction. -/
theorem c10_counterexample :
    '=' ∈ "p=q".toList ∧
    iterNextOne "abcde".toList false ⟨1, some ("p=q".toList, -4, 0)⟩ = .error () := by
  decide

/-- C10 witness: the amended theorem evaluated on the word `abcd` with the
ruled breakpoint `(2, ("k=kk", 1, 1))`, whose resolved index 3 is in range. -/
theorem c10_split_unwrap_witness :
    (('=' ∈ "k=kk".toList) → ∃ w1 w2,
      iterNextOne "abcd".toList false ⟨2, some ("k=kk".toList, 1, 1)⟩ = .ok (w1, w2)) ∧
    (('=' ∉ "k=kk".toList) →
      iterNextOne "abcd".toList false ⟨2, some ("k=kk".toList, 1, 1)⟩ = .error ()) :=
  c10_split_unwrap "abcd".toList false ⟨2, some ("k=kk".toList, 1, 1)⟩
    "k=kk".toList 1 1 rfl (by decide) (by decide) (by decide)

end PyphenRs
